import Mathlib

/-!
Verification of the email-scanner core (content extraction and lexical
analysis) against its specification.  The definitions below are a shallow
embedding of the functions in `src/main.py`: machine-level byte strings are
`List Nat` (each entry `< 256`), Python `str` values are Lean `String`
(Python strings are sequences of Unicode code points, as are the `Char`
lists underlying `String`), Python dictionaries (which preserve insertion
order) are association lists, and fallible operations return `Except`.
-/

namespace EmailScanner

/-! ## Base64 (model of Python `base64.b64decode` as used by the code) -/

/-- The standard base64 alphabet, in order, so that the character for the
sextet value `v` is at index `v`. -/
def b64Alphabet : List Char :=
  "ABCDEFGHIJKLMNOPQRSTUVWXYZabcdefghijklmnopqrstuvwxyz0123456789+/".data

/-- Character encoding a 6-bit value (only used with `v < 64`). -/
def sextetToChar (v : Nat) : Char :=
  b64Alphabet.getD v '='

/-- Helper for `charToSextet`: index of a character in a list. -/
def idxFrom : List Char → Char → Nat → Option Nat
  | [], _, _ => none
  | a :: as, c, i => if a = c then some i else idxFrom as c (i + 1)

/-- Sextet value of a base64 alphabet character, `none` for other
characters. -/
def charToSextet (c : Char) : Option Nat :=
  idxFrom b64Alphabet c 0

/-- Standard base64 encoding of a byte string (with `=` padding), for the
round-trip statement; bytes are taken three at a time. -/
def encodeBytes : List Nat → List Char
  | [] => []
  | [b1] => [sextetToChar (b1 / 4), sextetToChar (b1 % 4 * 16), '=', '=']
  | [b1, b2] =>
    [sextetToChar (b1 / 4), sextetToChar (b1 % 4 * 16 + b2 / 16),
     sextetToChar (b2 % 16 * 4), '=']
  | b1 :: b2 :: b3 :: rest =>
    sextetToChar (b1 / 4) :: sextetToChar (b1 % 4 * 16 + b2 / 16) ::
    sextetToChar (b2 % 16 * 4 + b3 / 64) :: sextetToChar (b3 % 64) ::
    encodeBytes rest

/-- Reassemble bytes from a list of sextet values (four at a time; a final
group of two or three values yields one or two bytes, as in base64). -/
def decodeVals : List Nat → List Nat
  | v1 :: v2 :: v3 :: v4 :: rest =>
    (v1 * 4 + v2 / 16) :: (v2 % 16 * 16 + v3 / 4) :: (v3 % 4 * 64 + v4) ::
    decodeVals rest
  | [v1, v2] => [v1 * 4 + v2 / 16]
  | [v1, v2, v3] => [v1 * 4 + v2 / 16, v2 % 16 * 16 + v3 / 4]
  | _ => []

/-- Model of Python `base64.b64decode` (default non-strict mode): characters
outside the alphabet are discarded, data characters are read up to the first
`=`, a data-character count of `4k+1` is an error, and an incomplete final
quad must be completed by `=` padding; material after the padding is
ignored. -/
def b64decodeE (cs : List Char) : Except String (List Nat) :=
  let kept := cs.filter (fun c => (charToSextet c).isSome || c = '=')
  let dataChars := kept.takeWhile (fun c => c ≠ '=')
  let n := dataChars.length
  let vals := dataChars.map (fun c => (charToSextet c).getD 0)
  if n % 4 = 0 then Except.ok (decodeVals vals)
  else if n % 4 = 1 then
    Except.error "Invalid base64-encoded string: number of data characters cannot be 1 more than a multiple of 4"
  else
    let padsAvail := ((kept.drop n).takeWhile (fun c => c = '=')).length
    if 4 - n % 4 ≤ padsAvail then Except.ok (decodeVals vals)
    else Except.error "Incorrect padding"

/-! ## UTF-8 (model of `bytes.decode('utf-8', errors='ignore')`) -/

/-- UTF-8 encoding of one code point (the code point of a `Char` is always
a valid scalar value). -/
def utf8EncodeChar (c : Char) : List Nat :=
  let n := c.toNat
  if n < 0x80 then [n]
  else if n < 0x800 then [0xC0 + n / 64, 0x80 + n % 64]
  else if n < 0x10000 then
    [0xE0 + n / 4096, 0x80 + n / 64 % 64, 0x80 + n % 64]
  else
    [0xF0 + n / 0x40000, 0x80 + n / 4096 % 64, 0x80 + n / 64 % 64, 0x80 + n % 64]

/-- UTF-8 encoding of a string as a byte list. -/
def utf8Encode (s : String) : List Nat :=
  (s.data.map utf8EncodeChar).flatten

/-- UTF-8 decoder with `errors='ignore'` semantics: well-formed sequences
(no overlong forms, no surrogates, at most U+10FFFF) yield their code
point; bytes that do not start a well-formed sequence are skipped, and
decoding resynchronizes at the next byte.  The first argument counts
continuation bytes of an already-emitted code point still to be consumed;
the continuation bytes are inspected by pure lookahead (`headD 0x100`
makes a missing byte fail every continuation test). -/
def utf8DecodeIgnoreAux : Nat → List Nat → List Nat
  | _ + 1, [] => []
  | k + 1, _ :: bs => utf8DecodeIgnoreAux k bs
  | 0, [] => []
  | 0, b :: bs =>
    if b < 0x80 then b :: utf8DecodeIgnoreAux 0 bs
    else if b < 0xC2 then utf8DecodeIgnoreAux 0 bs
    else if b < 0xE0 then
      if 0x80 ≤ bs.headD 0x100 ∧ bs.headD 0x100 < 0xC0 then
        ((b - 0xC0) * 64 + (bs.headD 0x100 - 0x80)) :: utf8DecodeIgnoreAux 1 bs
      else utf8DecodeIgnoreAux 0 bs
    else if b < 0xF0 then
      if (0x80 ≤ bs.headD 0x100 ∧ bs.headD 0x100 < 0xC0 ∧
          (b = 0xE0 → 0xA0 ≤ bs.headD 0x100) ∧ (b = 0xED → bs.headD 0x100 < 0xA0)) ∧
         (0x80 ≤ (bs.drop 1).headD 0x100 ∧ (bs.drop 1).headD 0x100 < 0xC0) then
        ((b - 0xE0) * 4096 + (bs.headD 0x100 - 0x80) * 64 +
          ((bs.drop 1).headD 0x100 - 0x80)) :: utf8DecodeIgnoreAux 2 bs
      else utf8DecodeIgnoreAux 0 bs
    else if b < 0xF5 then
      if (0x80 ≤ bs.headD 0x100 ∧ bs.headD 0x100 < 0xC0 ∧
          (b = 0xF0 → 0x90 ≤ bs.headD 0x100) ∧ (b = 0xF4 → bs.headD 0x100 < 0x90)) ∧
         (0x80 ≤ (bs.drop 1).headD 0x100 ∧ (bs.drop 1).headD 0x100 < 0xC0) ∧
         (0x80 ≤ (bs.drop 2).headD 0x100 ∧ (bs.drop 2).headD 0x100 < 0xC0) then
        ((b - 0xF0) * 0x40000 + (bs.headD 0x100 - 0x80) * 4096 +
          ((bs.drop 1).headD 0x100 - 0x80) * 64 + ((bs.drop 2).headD 0x100 - 0x80)) ::
        utf8DecodeIgnoreAux 3 bs
      else utf8DecodeIgnoreAux 0 bs
    else utf8DecodeIgnoreAux 0 bs

/-- `bytes.decode('utf-8', errors='ignore')` as a code-point list. -/
def utf8DecodeIgnore (bs : List Nat) : List Nat :=
  utf8DecodeIgnoreAux 0 bs

/-! ## `decode_email_content` -/

/-- The character translation `replace('-', '+').replace('_', '/')`. -/
def pyReplaceChar (c : Char) : Char :=
  if c = '-' then '+' else if c = '_' then '/' else c

/-- The normalization the code performs before calling `b64decode`: pad the
string with `=` to a multiple of four characters, then translate the
URL-safe alphabet back to the standard one. -/
def b64Normalized (content : String) : List Char :=
  let padding := if content.data.length % 4 ≠ 0 then 4 - content.data.length % 4 else 0
  let padded := content.data ++ List.replicate padding '='
  padded.map pyReplaceChar

/-- Embedding of `decode_email_content` (src/main.py lines 86-100): pad,
translate URL-safe characters, base64-decode, interpret the bytes as UTF-8
with invalid sequences ignored; any decoding error is caught and turned
into an inline error string. -/
def decode_email_content (content : String) : String :=
  match b64decodeE (b64Normalized content) with
  | Except.ok bytes => ⟨(utf8DecodeIgnore bytes).map Char.ofNat⟩
  | Except.error e => "Error decoding content: " ++ e

/-! ## Message parts and `get_email_content` -/

/-- The `body` dictionary of a part: it may carry inline base64 `data`
and/or an `attachmentId` reference. -/
structure Body where
  data : Option String
  attachmentId : Option String
deriving DecidableEq

/-- A node of the message part tree: an optional `mimeType`, an optional
`body`, and the list of child parts (an absent `parts` key behaves exactly
like an empty list in the code, which only iterates over it). -/
inductive Part where
  | mk (mimeType : Option String) (body : Option Body) (parts : List Part)

/-- The `mimeType` field. -/
def Part.mimeType : Part → Option String
  | .mk m _ _ => m

/-- The `body` field. -/
def Part.body : Part → Option Body
  | .mk _ b _ => b

/-- The child parts. -/
def Part.parts : Part → List Part
  | .mk _ _ ps => ps

/-- `part.get('mimeType', '').startswith('text/')`. -/
def textMime (m : Option String) : Bool :=
  "text/".data.isPrefixOf (m.getD "").data

/-- Embedding of the inner helper `extract_content` (src/main.py lines
107-115), returning the list of strings it appends: the decoded body data
when present and truthy (non-empty), the attachment placeholder when the
body only references an attachment, nothing otherwise. -/
def extract_content (p : Part) : List String :=
  match p.body with
  | none => []
  | some b =>
    match b.data with
    | some d =>
      let decoded := decode_email_content d
      if decoded ≠ "" then [decoded] else []
    | none =>
      match b.attachmentId with
      | some _ => ["[Attachment not downloaded]"]
      | none => []

mutual

/-- Embedding of the inner helper `process_parts` (src/main.py lines
118-126): depth-first pre-order walk appending the extracted content of
every `text/` part, body before children. -/
def process_parts : Part → List String
  | .mk m b ps =>
    (if textMime m then extract_content (.mk m b ps) else []) ++ processList ps

/-- The `for p in part['parts']` loop of `process_parts`. -/
def processList : List Part → List String
  | [] => []
  | p :: ps => process_parts p ++ processList ps

end

/-- Newline join, `'\n'.join(content)`. -/
def joinNl : List String → String
  | [] => ""
  | [s] => s
  | s :: rest => s ++ "\n" ++ joinNl rest

/-- Embedding of `get_email_content` (src/main.py lines 102-135) applied to
the message payload: walk the parts, fall back to the root body if nothing
was collected, and return the newline-joined pieces or the sentinel. -/
def get_email_content (payload : Part) : String :=
  let content := process_parts payload
  let content :=
    if content = [] ∧ (payload.body).isSome then extract_content payload else content
  if content ≠ [] then joinNl content else "No readable content available"

/-! ## Lexical analyzer: `create_word_frequency_table` -/

/-- Whitespace for `str.strip()` (space, tab, newline, carriage return,
vertical tab, form feed). -/
def isSpaceC (c : Char) : Bool :=
  c = ' ' ∨ c = '\t' ∨ c = '\n' ∨ c = '\r' ∨ c = '\x0b' ∨ c = '\x0c'

/-- `line.strip()`. -/
def trimL (cs : List Char) : List Char :=
  ((cs.dropWhile isSpaceC).reverse.dropWhile isSpaceC).reverse

/-- The truncation marker line. -/
def marker : List Char := "Subscription Information".data

/-- Removal of HTML-like tags, the regex `<[^>]+>` under `re.sub`: a `<`
followed by at least one non-`>` character and then `>` is removed
(leftmost match first, scanning resumes after the match). -/
def htmlSubAux : Nat → List Char → List Char
  | 0, [] => []
  | 0, c :: cs =>
    if c = '<' then
      match List.findIdx? (fun x => x = '>') cs with
      | some i => if 1 ≤ i then htmlSubAux (i + 1) cs else c :: htmlSubAux 0 cs
      | none => c :: htmlSubAux 0 cs
    else c :: htmlSubAux 0 cs
  | _ + 1, [] => []
  | k + 1, _ :: cs => htmlSubAux k cs

/-- `re.sub(r'<[^>]+>', '', content)`. -/
def htmlSub (cs : List Char) : List Char :=
  htmlSubAux 0 cs

/-- One character of the URL regex body: the union of the branches
`[a-zA-Z]`, `[0-9]`, `[$-_@.&+]` (note `$-_` is a character *range*) and
`[!*\(),]`; the final `%XX` branch never fires because `%` already lies in
the range `$-_`, which is tried first. -/
def isUrlChar (c : Char) : Bool :=
  ('a' ≤ c ∧ c ≤ 'z') ∨ ('A' ≤ c ∧ c ≤ 'Z') ∨ ('0' ≤ c ∧ c ≤ '9') ∨
  ('$' ≤ c ∧ c ≤ '_') ∨ c = '@' ∨ c = '.' ∨ c = '&' ∨ c = '+' ∨
  c = '!' ∨ c = '*' ∨ c = '\\' ∨ c = '(' ∨ c = ')' ∨ c = ','

/-- Length of the scheme `http://` or `https://` if it starts here. -/
def schemeLen (cs : List Char) : Option Nat :=
  if "http://".data.isPrefixOf cs then some 7
  else if "https://".data.isPrefixOf cs then some 8
  else none

/-- State of the URL-removal scan: scanning normally, silently consuming
`k + 1` more scheme characters, or consuming the matched URL body. -/
inductive UState where
  | norm
  | drop (k : Nat)
  | run

/-- Scan for `re.sub` of the URL regex: on a scheme followed by at least
one URL-body character, the scheme and the maximal run of body characters
are removed; otherwise characters are kept and scanning moves on. -/
def urlSubAux : UState → List Char → List Char
  | _, [] => []
  | .drop 0, _ :: cs => urlSubAux .run cs
  | .drop (k + 1), _ :: cs => urlSubAux (.drop k) cs
  | .run, c :: cs =>
    if isUrlChar c then urlSubAux .run cs
    else
      match schemeLen (c :: cs) with
      | some n =>
        if isUrlChar (((c :: cs).drop n).headD ' ') then urlSubAux (.drop (n - 2)) cs
        else c :: urlSubAux .norm cs
      | none => c :: urlSubAux .norm cs
  | .norm, c :: cs =>
    match schemeLen (c :: cs) with
    | some n =>
      if isUrlChar (((c :: cs).drop n).headD ' ') then urlSubAux (.drop (n - 2)) cs
      else c :: urlSubAux .norm cs
    | none => c :: urlSubAux .norm cs

/-- `re.sub` of the URL pattern with the empty string. -/
def urlSub (cs : List Char) : List Char :=
  urlSubAux .norm cs

/-- `content.split('\n')`. -/
def splitNl : List Char → List (List Char)
  | [] => [[]]
  | c :: cs =>
    if c = '\n' then [] :: splitNl cs
    else
      match splitNl cs with
      | l :: ls => (c :: l) :: ls
      | [] => [[c]]

/-- Newline join at the character-list level. -/
def joinNlL : List (List Char) → List Char
  | [] => []
  | [l] => l
  | l :: ls => l ++ '\n' :: joinNlL ls

/-- A `\w` word character: letters, digits, underscore. -/
def isWordChar (c : Char) : Bool :=
  c.isAlphanum || c = '_'

/-- `re.findall(r'\b\w+\b', text)` returns the maximal runs of word
characters; `cur` is the current run, reversed. -/
def tokenizeAux : List Char → List Char → List (List Char)
  | [], cur => if cur = [] then [] else [cur.reverse]
  | c :: cs, cur =>
    if isWordChar c then tokenizeAux cs (c :: cur)
    else if cur = [] then tokenizeAux cs [] else cur.reverse :: tokenizeAux cs []

/-- The token list of a text. -/
def tokenize (cs : List Char) : List String :=
  (tokenizeAux cs []).map (fun l => ⟨l⟩)

/-- `str.lower()` on one character (ASCII model). -/
def toLowerC (c : Char) : Char :=
  if 65 ≤ c.toNat ∧ c.toNat ≤ 90 then Char.ofNat (c.toNat + 32) else c

/-- `word.isalnum()`: non-empty and every character alphanumeric. -/
def pyIsAlnum (w : String) : Bool :=
  w.data ≠ [] && w.data.all (fun c => c.isAlphanum)

/-- Python dictionary assignment `m[k] = v`: replace in place if the key
exists, else append (dictionaries preserve insertion order). -/
def dictSet : List (String × String) → String → String → List (String × String)
  | [], k, v => [(k, v)]
  | (k0, v0) :: rest, k, v =>
    if k0 = k then (k0, v) :: rest else (k0, v0) :: dictSet rest k v

/-- Embedding of `get_word_pos_tags` (src/main.py lines 137-181).  The
external Natural Language service call is represented by its outcome
`resp`: any exception while building the client or analyzing syntax yields
the empty mapping, and a successful response is folded into a
word-to-tag dictionary keyed by the lowercased token text (an empty
response therefore also yields the empty mapping). -/
def get_word_pos_tags (resp : Except String (List (String × String))) :
    List (String × String) :=
  match resp with
  | Except.error _ => []
  | Except.ok toks =>
    toks.foldl (fun m wt => dictSet m ⟨wt.1.data.map toLowerC⟩ wt.2) []

/-- `word_freq[word][0] += 1`. -/
def incr : List (String × Nat × String) → String → List (String × Nat × String)
  | [], _ => []
  | (k, c, t) :: rest, w =>
    if k = w then (k, c + 1, t) :: rest else (k, c, t) :: incr rest w

/-- `word in word_freq`. -/
def hasKey (m : List (String × Nat × String)) (w : String) : Bool :=
  m.any (fun e => e.1 = w)

/-- The frequency-table loop of `create_word_frequency_table` (src/main.py
lines 214-225): skip single-character words, keep alphanumeric words,
count repeats, fix the POS tag at first insertion. -/
def buildFreq (tags : List (String × String)) :
    List String → List (String × Nat × String) → List (String × Nat × String)
  | [], acc => acc
  | w :: ws, acc =>
    if w.data.length ≤ 1 then buildFreq tags ws acc
    else if pyIsAlnum w then
      if hasKey acc w then buildFreq tags ws (incr acc w)
      else buildFreq tags ws (acc ++ [(w, 1, (List.lookup w tags).getD "UNKNOWN")])
    else buildFreq tags ws acc

/-- The text after HTML-tag removal and URL removal (src/main.py lines
186-189). -/
def cleanedText (content : String) : List Char :=
  urlSub (htmlSub content.data)

/-- The cleaned text truncated at the first line whose stripped content is
the marker, rejoined with newlines (src/main.py lines 191-200). -/
def truncatedText (content : String) : List Char :=
  joinNlL ((splitNl (cleanedText content)).takeWhile (fun l => trimL l ≠ marker))

/-- Embedding of `create_word_frequency_table` (src/main.py lines
183-227); `resp` is the outcome of the external POS-tagging call made on
the truncated text. -/
def create_word_frequency_table (resp : Except String (List (String × String)))
    (content : String) : List (String × Nat × String) :=
  let filtered := truncatedText content
  let tags := get_word_pos_tags resp
  let words := tokenize (filtered.map toLowerC)
  buildFreq tags words []

/-! ## CSV serialization: `save_word_frequency_csv` -/

/-- Stable descending insertion by count: the new element goes before the
first element whose count is not larger, so elements with equal counts
keep their original relative order. -/
def insertDesc (x : String × Nat × String) :
    List (String × Nat × String) → List (String × Nat × String)
  | [] => [x]
  | y :: ys => if x.2.1 < y.2.1 then y :: insertDesc x ys else x :: y :: ys

/-- Model of `sorted(word_freq.items(), key=lambda x: x[1][0],
reverse=True)`: a stable sort by descending count (Python sorts are
stable, also with `reverse=True`). -/
def sortDesc : List (String × Nat × String) → List (String × Nat × String)
  | [] => []
  | x :: xs => insertDesc x (sortDesc xs)

/-- The rows written by `save_word_frequency_csv` (src/main.py lines
229-242): the header row followed by one row per table entry in sorted
order. -/
def csvRows (wf : List (String × Nat × String)) : List (List String) :=
  ["Word", "Frequency", "Part of Speech"] ::
  (sortDesc wf).map (fun e => [e.1, Nat.repr e.2.1, e.2.2])

/-! ## Helper lemmas for extraction -/

/-- A string with nonempty character data is not the empty string. -/
theorem ne_empty_of_data_ne {s : String} (h : s.data ≠ []) : s ≠ "" := by
  intro he
  subst he
  exact h rfl

/-- Everything `extract_content` appends is a non-empty string. -/
theorem extract_content_mem_ne (p : Part) : ∀ s ∈ extract_content p, s ≠ "" := by
  obtain ⟨m, b, ps⟩ := p
  intro s hs
  rcases b with _ | ⟨bd, batt⟩
  · simp [extract_content, Part.body] at hs
  · rcases bd with _ | d
    · rcases batt with _ | a
      · simp [extract_content, Part.body] at hs
      · simp [extract_content, Part.body] at hs
        subst hs
        decide
    · by_cases hdec : decode_email_content d = ""
      · simp [extract_content, Part.body, hdec] at hs
      · simp [extract_content, Part.body, hdec] at hs
        exact hs ▸ hdec

/-- Everything `process_parts` collects is a non-empty string. -/
theorem process_parts_mem_ne (p : Part) : ∀ s ∈ process_parts p, s ≠ "" := by
  refine process_parts.induct (fun q => ∀ s ∈ process_parts q, s ≠ "")
    (fun ps => ∀ s ∈ processList ps, s ≠ "") ?_ ?_ ?_ p
  · intro m b ps ih s hs
    rw [process_parts] at hs
    rcases List.mem_append.mp hs with h | h
    · by_cases ht : textMime m
      · rw [if_pos ht] at h
        exact extract_content_mem_ne _ s h
      · rw [if_neg ht] at h
        simp at h
    · exact ih s h
  · intro s hs
    simp [processList] at hs
  · intro q ps ih1 ih2 s hs
    rw [processList] at hs
    rcases List.mem_append.mp hs with h | h
    · exact ih1 s h
    · exact ih2 s h

/-- A newline join of non-empty strings, at least one of them, is
non-empty. -/
theorem joinNl_ne (l : List String) (h : l ≠ []) (h2 : ∀ s ∈ l, s ≠ "") :
    joinNl l ≠ "" := by
  rcases l with _ | ⟨s, rest⟩
  · exact absurd rfl h
  rcases rest with _ | ⟨t, rest⟩
  · exact h2 s (by simp)
  have hj : joinNl (s :: t :: rest) = s ++ "\n" ++ joinNl (t :: rest) := rfl
  rw [hj]
  apply ne_empty_of_data_ne
  rw [String.data_append, String.data_append]
  have hs : s.data ≠ [] := by
    intro hd
    exact h2 s (by simp) (by cases s; simp_all)
  simp [hs]

/-- C1.  For every Part tree, content extraction is total (it is a plain
function into `String`, every decoding failure having been converted to an
inline string) and returns a non-empty — in particular non-null —
string. -/
theorem extract_never_fails (p : Part) : get_email_content p ≠ "" := by
  simp only [get_email_content]
  by_cases hc : process_parts p = [] ∧ (Part.body p).isSome = true
  · rw [if_pos hc]
    by_cases he : extract_content p = []
    · rw [if_neg (not_not_intro he)]
      decide
    · rw [if_pos he]
      exact joinNl_ne _ he (extract_content_mem_ne p)
  · rw [if_neg hc]
    by_cases hp : process_parts p = []
    · rw [if_neg (not_not_intro hp)]
      decide
    · rw [if_pos hp]
      exact joinNl_ne _ hp (process_parts_mem_ne p)

mutual

/-- Whether some part of the tree carries a MIME type starting with
`text/`. -/
def hasTextPart : Part → Bool
  | .mk m _ ps => textMime m || hasTextList ps

/-- List version of `hasTextPart`. -/
def hasTextList : List Part → Bool
  | [] => false
  | p :: ps => hasTextPart p || hasTextList ps

end

/-- A tree without `text/` parts contributes nothing during the walk. -/
theorem process_parts_eq_nil (p : Part) (h : hasTextPart p = false) :
    process_parts p = [] := by
  refine process_parts.induct (fun q => hasTextPart q = false → process_parts q = [])
    (fun ps => hasTextList ps = false → processList ps = []) ?_ ?_ ?_ p h
  · intro m b ps ih hq
    rw [hasTextPart, Bool.or_eq_false_iff] at hq
    rw [process_parts, if_neg (by simp [hq.1]), ih hq.2]
    rfl
  · intro _
    rfl
  · intro q ps ih1 ih2 hq
    rw [hasTextList, Bool.or_eq_false_iff] at hq
    rw [processList, ih1 hq.1, ih2 hq.2]
    rfl

/-- C4.  If no part of the tree has a `text/` MIME type and the root part
carries no body, extraction returns the sentinel string (which is not
empty and not an error marker). -/
theorem no_text_parts_sentinel (p : Part) (h1 : hasTextPart p = false)
    (h2 : p.body = none) : get_email_content p = "No readable content available" := by
  simp only [get_email_content]
  rw [process_parts_eq_nil p h1]
  simp [h2]

/-- Witness for C4 at a concrete message: a root without body whose only
part is an image. -/
theorem no_text_parts_sentinel_witness :
    get_email_content (Part.mk (some "multipart/mixed") none
      [Part.mk (some "image/png") (some ⟨some "QUJD", none⟩) []]) =
      "No readable content available" :=
  no_text_parts_sentinel
    (Part.mk (some "multipart/mixed") none
      [Part.mk (some "image/png") (some ⟨some "QUJD", none⟩) []])
    (by decide) (by decide)

/-- C5.  The two-children scenario: a `text/plain` part with base64 body
`"SGVsbG8="` and a `text/plain` part with only an `attachmentId` extract
to `"Hello\n[Attachment not downloaded]"`. -/
theorem scenario_multipart_extract :
    get_email_content
      (Part.mk (some "multipart/mixed") none
        [Part.mk (some "text/plain") (some ⟨some "SGVsbG8=", none⟩) [],
         Part.mk (some "text/plain") (some ⟨none, some "att-1"⟩) []]) =
      "Hello\n[Attachment not downloaded]" := by
  decide

/-- C3.  End-to-end scenario: the URL is stripped, the text is truncated at
the marker line, tokenization yields the four lowercase words, and with an
empty POS response every entry has count 1 and the "UNKNOWN" sentinel tag
(the code's spelling of the "unknown" sentinel). -/
theorem scenario_frequency_table :
    String.mk (truncatedText "Hello world! Visit http://example.com now.\nSubscription Information\nIgnored text here") =
      "Hello world! Visit  now." ∧
    tokenize ((truncatedText "Hello world! Visit http://example.com now.\nSubscription Information\nIgnored text here").map toLowerC) =
      ["hello", "world", "visit", "now"] ∧
    create_word_frequency_table (Except.ok [])
      "Hello world! Visit http://example.com now.\nSubscription Information\nIgnored text here" =
      [("hello", 1, "UNKNOWN"), ("world", 1, "UNKNOWN"),
       ("visit", 1, "UNKNOWN"), ("now", 1, "UNKNOWN")] := by
  refine ⟨by decide, by decide, by decide⟩

/-- C10 counterexample: decoding the inline data `""` succeeds and yields
the empty string, yet nothing is appended to the output list for this
visited `text/` part (the code's `if decoded:` guard skips falsy values),
so extraction of this message falls through to the sentinel. -/
theorem empty_decode_counterexample :
    decode_email_content "" = "" ∧
    process_parts (Part.mk (some "text/plain") (some ⟨some "", none⟩) []) = [] ∧
    get_email_content (Part.mk (some "text/plain") (some ⟨some "", none⟩) []) =
      "No readable content available" := by
  refine ⟨by decide, by decide, by decide⟩

/-- C10 (amended).  For a visited `text/` part with inline data, the
decoded text is appended exactly when it is non-empty (an empty decoded
text is skipped), and when base64 decoding fails the (non-empty)
descriptive error string becomes the decoded value and is appended in
place of the content. -/
theorem text_leaf_extraction :
    (∀ (m : Option String) (d : String) (att : Option String) (kids : List Part),
      textMime m = true →
      process_parts (Part.mk m (some ⟨some d, att⟩) kids) =
        (if decode_email_content d ≠ "" then [decode_email_content d] else []) ++
          processList kids) ∧
    (∀ s e, b64decodeE (b64Normalized s) = Except.error e →
      decode_email_content s = "Error decoding content: " ++ e ∧
      decode_email_content s ≠ "") := by
  constructor
  · intro m d att kids h
    rw [process_parts, if_pos h]
    rfl
  · intro s e he
    have hd : decode_email_content s = "Error decoding content: " ++ e := by
      unfold decode_email_content
      rw [he]
    refine ⟨hd, ?_⟩
    rw [hd]
    apply ne_empty_of_data_ne
    rw [String.data_append]
    intro hx
    rw [List.append_eq_nil] at hx
    exact absurd hx.1 (by decide)

/-- Witness for C10's amended statement: a non-empty decode is appended,
and a malformed base64 body produces the inline error string. -/
theorem text_leaf_extraction_witness :
    process_parts (Part.mk (some "text/plain") (some ⟨some "SGVsbG8=", none⟩) []) =
      ["Hello"] ∧
    decode_email_content "A" =
      "Error decoding content: Invalid base64-encoded string: number of data characters cannot be 1 more than a multiple of 4" := by
  constructor
  · have h := text_leaf_extraction.1 (some "text/plain") "SGVsbG8=" none [] (by decide)
    rw [h]
    decide
  · exact (text_leaf_extraction.2 "A"
      "Invalid base64-encoded string: number of data characters cannot be 1 more than a multiple of 4"
      rfl).1

/-! ## Frequency-table machinery -/

/-- An entry of `incr acc w0` is an entry of `acc`, possibly with its count
bumped by one. -/
theorem incr_mem_cases (acc : List (String × Nat × String)) (w0 : String) :
    ∀ e ∈ incr acc w0, e ∈ acc ∨ ∃ k c t, (k, c, t) ∈ acc ∧ e = (k, c + 1, t) := by
  induction acc with
  | nil =>
    intro e he
    simp [incr] at he
  | cons hd tl ih =>
    obtain ⟨k, c, t⟩ := hd
    intro e he
    rw [incr] at he
    by_cases hk : k = w0
    · rw [if_pos hk] at he
      rcases List.mem_cons.mp he with he | he
      · exact Or.inr ⟨k, c, t, by simp, he⟩
      · exact Or.inl (List.mem_cons_of_mem _ he)
    · rw [if_neg hk] at he
      rcases List.mem_cons.mp he with he | he
      · exact Or.inl (he ▸ List.mem_cons_self _ _)
      · rcases ih e he with h | ⟨k2, c2, t2, hm, hee⟩
        · exact Or.inl (List.mem_cons_of_mem _ h)
        · exact Or.inr ⟨k2, c2, t2, List.mem_cons_of_mem _ hm, hee⟩

/-- Preservation of a per-entry predicate through the frequency-table
loop: if the predicate survives a count increment and holds of every fresh
entry built from a surviving word, it holds of every entry of the
result. -/
theorem buildFreq_entries (tags : List (String × String))
    (R : String × Nat × String → Prop)
    (hincr : ∀ k c t, R (k, c, t) → R (k, c + 1, t)) :
    ∀ (ws : List String) (acc : List (String × Nat × String)),
      (∀ w ∈ ws, 1 < w.data.length → pyIsAlnum w = true →
        R (w, 1, (List.lookup w tags).getD "UNKNOWN")) →
      (∀ e ∈ acc, R e) → ∀ e ∈ buildFreq tags ws acc, R e := by
  intro ws
  induction ws with
  | nil =>
    intro acc hws hacc e he
    rw [buildFreq] at he
    exact hacc e he
  | cons w rest ih =>
    intro acc hws hacc e he
    rw [buildFreq] at he
    by_cases h1 : w.data.length ≤ 1
    · rw [if_pos h1] at he
      exact ih acc (fun v hv => hws v (List.mem_cons_of_mem _ hv)) hacc e he
    · rw [if_neg h1] at he
      by_cases h2 : pyIsAlnum w = true
      · rw [if_pos h2] at he
        by_cases h3 : hasKey acc w = true
        · rw [if_pos h3] at he
          refine ih _ (fun v hv => hws v (List.mem_cons_of_mem _ hv)) ?_ e he
          intro e2 he2
          rcases incr_mem_cases acc w e2 he2 with h | ⟨k, c, t, hm, hee⟩
          · exact hacc e2 h
          · exact hee ▸ hincr k c t (hacc _ hm)
        · rw [if_neg h3] at he
          refine ih _ (fun v hv => hws v (List.mem_cons_of_mem _ hv)) ?_ e he
          intro e2 he2
          rcases List.mem_append.mp he2 with h | h
          · exact hacc e2 h
          · have : e2 = (w, 1, (List.lookup w tags).getD "UNKNOWN") := by simpa using h
            exact this ▸ hws w (List.mem_cons_self _ _) (by omega) h2
      · rw [if_neg h2] at he
        exact ih acc (fun v hv => hws v (List.mem_cons_of_mem _ hv)) hacc e he

/-- C6.  The external POS call's failure (any exception) or empty response
yields the empty tag mapping and every table entry carries the "UNKNOWN"
sentinel; independently, any token whose tag lookup misses gets the
"UNKNOWN" sentinel. -/
theorem pos_failure_unknown_tags :
    ∀ (resp : Except String (List (String × String))) (content : String),
      (((∃ e, resp = Except.error e) ∨ resp = Except.ok []) →
        get_word_pos_tags resp = [] ∧
        ∀ w c t, (w, c, t) ∈ create_word_frequency_table resp content → t = "UNKNOWN") ∧
      (∀ w c t, (w, c, t) ∈ create_word_frequency_table resp content →
        List.lookup w (get_word_pos_tags resp) = none → t = "UNKNOWN") := by
  intro resp content
  have key : ∀ w c t, (w, c, t) ∈ create_word_frequency_table resp content →
      t = (List.lookup w (get_word_pos_tags resp)).getD "UNKNOWN" := by
    intro w c t hm
    simp only [create_word_frequency_table] at hm
    exact buildFreq_entries (get_word_pos_tags resp)
      (fun e => e.2.2 = (List.lookup e.1 (get_word_pos_tags resp)).getD "UNKNOWN")
      (fun k c t h => h) _ []
      (fun v hv h1 h2 => rfl) (by simp) (w, c, t) hm
  constructor
  · intro hfail
    have htags : get_word_pos_tags resp = [] := by
      rcases hfail with ⟨e, he⟩ | he
      · rw [he]
        rfl
      · rw [he]
        rfl
    refine ⟨htags, fun w c t hm => ?_⟩
    have := key w c t hm
    rw [htags] at this
    simpa [List.lookup] using this
  · intro w c t hm hnone
    have := key w c t hm
    rw [hnone] at this
    simpa using this

/-- Witness for C6 at a failing response and a concrete text. -/
theorem pos_failure_unknown_tags_witness :
    ("hello", (1 : Nat), "UNKNOWN") ∈
      create_word_frequency_table (Except.error "boom") "hello there" ∧
    "UNKNOWN" = "UNKNOWN" := by
  have hm : ("hello", (1 : Nat), "UNKNOWN") ∈
      create_word_frequency_table (Except.error "boom") "hello there" := by decide
  exact ⟨hm, (pos_failure_unknown_tags (Except.error "boom") "hello there").2
    "hello" 1 "UNKNOWN" hm (by decide)⟩

/-- Evaluation of `Char.ofNat` on a valid code point. -/
theorem toNat_ofNat_valid {n : Nat} (h : n.isValidChar) : (Char.ofNat n).toNat = n := by
  unfold Char.ofNat
  rw [dif_pos h]
  rfl

/-- Lowercasing never produces an ASCII uppercase letter. -/
theorem toLowerC_not_upper (c : Char) :
    ¬(65 ≤ (toLowerC c).toNat ∧ (toLowerC c).toNat ≤ 90) := by
  unfold toLowerC
  by_cases h : 65 ≤ c.toNat ∧ c.toNat ≤ 90
  · rw [if_pos h]
    have hv : (c.toNat + 32).isValidChar := Or.inl (by omega)
    rw [toNat_ofNat_valid hv]
    omega
  · rw [if_neg h]
    exact h

/-- Every character of every token produced by the tokenizer satisfies any
predicate holding of all scanned characters. -/
theorem tokenizeAux_chars (P : Char → Prop) :
    ∀ (cs cur : List Char), (∀ ch ∈ cs, P ch) → (∀ ch ∈ cur, P ch) →
      ∀ l ∈ tokenizeAux cs cur, ∀ ch ∈ l, P ch := by
  intro cs
  induction cs with
  | nil =>
    intro cur h1 h2 l hl ch hch
    rw [tokenizeAux] at hl
    by_cases hc : cur = []
    · rw [if_pos hc] at hl
      simp at hl
    · rw [if_neg hc] at hl
      simp at hl
      subst hl
      exact h2 ch (List.mem_reverse.mp hch)
  | cons c rest ih =>
    intro cur h1 h2 l hl ch hch
    rw [tokenizeAux] at hl
    by_cases hw : isWordChar c = true
    · rw [if_pos hw] at hl
      refine ih (c :: cur) (fun x hx => h1 x (List.mem_cons_of_mem _ hx)) ?_ l hl ch hch
      intro x hx
      rcases List.mem_cons.mp hx with h | h
      · exact h ▸ h1 c (List.mem_cons_self _ _)
      · exact h2 x h
    · rw [if_neg hw] at hl
      by_cases hc : cur = []
      · rw [if_pos hc] at hl
        exact ih [] (fun x hx => h1 x (List.mem_cons_of_mem _ hx)) (by simp) l hl ch hch
      · rw [if_neg hc] at hl
        rcases List.mem_cons.mp hl with h | h
        · exact h2 ch (List.mem_reverse.mp (h ▸ hch))
        · exact ih [] (fun x hx => h1 x (List.mem_cons_of_mem _ hx)) (by simp) l h ch hch

/-- C8.  Every key of the frequency table has length at least two, consists
of alphanumeric characters only (so no underscore), and contains no ASCII
uppercase letter. -/
theorem table_keys_wellformed :
    ∀ (resp : Except String (List (String × String))) (content : String)
      (w : String) (c : Nat) (t : String),
      (w, c, t) ∈ create_word_frequency_table resp content →
      2 ≤ w.data.length ∧ (∀ ch ∈ w.data, ch.isAlphanum = true) ∧
        ∀ ch ∈ w.data, ¬(65 ≤ ch.toNat ∧ ch.toNat ≤ 90) := by
  intro resp content w c t hm
  simp only [create_word_frequency_table] at hm
  refine buildFreq_entries (get_word_pos_tags resp)
    (fun e => 2 ≤ e.1.data.length ∧ (∀ ch ∈ e.1.data, ch.isAlphanum = true) ∧
      ∀ ch ∈ e.1.data, ¬(65 ≤ ch.toNat ∧ ch.toNat ≤ 90))
    (fun k c t h => h) _ [] ?_ (by simp) (w, c, t) hm
  intro v hv h1 h2
  refine ⟨h1, ?_, ?_⟩
  · intro ch hch
    simp [pyIsAlnum, List.all_eq_true] at h2
    exact h2.2 ch hch
  · simp only [tokenize] at hv
    obtain ⟨l, hl, rfl⟩ := List.mem_map.mp hv
    intro ch hch
    refine tokenizeAux_chars (fun x => ¬(65 ≤ x.toNat ∧ x.toNat ≤ 90))
      ((truncatedText content).map toLowerC) [] ?_ (by simp) l hl ch hch
    intro x hx
    obtain ⟨y, hy, rfl⟩ := List.mem_map.mp hx
    exact toLowerC_not_upper y

/-- Witness for C8 via the key "hello" of a concrete table. -/
theorem table_keys_wellformed_witness : 2 ≤ "hello".data.length :=
  (table_keys_wellformed (Except.ok []) "Hello hi there" "hello" 1 "UNKNOWN"
    (by decide)).1

/-! ## Sorting lemmas for the CSV step -/

/-- Membership in an insertion. -/
theorem mem_insertDesc (x e : String × Nat × String) :
    ∀ l, e ∈ insertDesc x l ↔ e = x ∨ e ∈ l := by
  intro l
  induction l with
  | nil => simp [insertDesc]
  | cons y ys ih =>
    rw [insertDesc]
    by_cases hxy : x.2.1 < y.2.1
    · rw [if_pos hxy]
      simp only [List.mem_cons, ih]
      tauto
    · rw [if_neg hxy]
      simp only [List.mem_cons]

/-- Inserting into a descending list keeps it descending. -/
theorem insertDesc_pairwise (x : String × Nat × String) :
    ∀ l, List.Pairwise (fun a b => b.2.1 ≤ a.2.1) l →
      List.Pairwise (fun a b => b.2.1 ≤ a.2.1) (insertDesc x l) := by
  intro l
  induction l with
  | nil =>
    intro _
    simp [insertDesc]
  | cons y ys ih =>
    intro h
    rcases List.pairwise_cons.mp h with ⟨hy, hys⟩
    rw [insertDesc]
    by_cases hxy : x.2.1 < y.2.1
    · rw [if_pos hxy]
      refine List.pairwise_cons.mpr ⟨?_, ih hys⟩
      intro e he
      rcases (mem_insertDesc x e ys).mp he with rfl | he2
      · omega
      · exact hy e he2
    · rw [if_neg hxy]
      refine List.pairwise_cons.mpr ⟨?_, h⟩
      intro e he
      rcases List.mem_cons.mp he with rfl | he2
      · omega
      · exact le_trans (hy e he2) (by omega)

/-- The sorted table is descending in counts. -/
theorem sortDesc_pairwise :
    ∀ l, List.Pairwise (fun a b => b.2.1 ≤ a.2.1) (sortDesc l) := by
  intro l
  induction l with
  | nil => simp [sortDesc]
  | cons x xs ih => exact insertDesc_pairwise x (sortDesc xs) ih

/-- Filtering at a fixed count commutes with insertion: the inserted
element lands in front of the equal-count elements already present. -/
theorem filter_insertDesc (x : String × Nat × String) (c : Nat) :
    ∀ l, (insertDesc x l).filter (fun e => e.2.1 = c) =
      if x.2.1 = c then x :: l.filter (fun e => e.2.1 = c)
      else l.filter (fun e => e.2.1 = c) := by
  intro l
  induction l with
  | nil =>
    rw [insertDesc]
    by_cases hx : x.2.1 = c
    · simp [List.filter_cons, hx]
    · simp [List.filter_cons, hx]
  | cons y ys ih =>
    rw [insertDesc]
    by_cases hxy : x.2.1 < y.2.1
    · rw [if_pos hxy]
      by_cases hy : y.2.1 = c
      · have hx : ¬x.2.1 = c := by omega
        simp [List.filter_cons, hy, hx, ih]
      · by_cases hx : x.2.1 = c
        · simp [List.filter_cons, hy, hx, ih]
        · simp [List.filter_cons, hy, hx, ih]
    · rw [if_neg hxy]
      by_cases hx : x.2.1 = c
      · simp [List.filter_cons, hx]
      · simp [List.filter_cons, hx]

/-- Stability: the equal-count elements of the sorted list appear in their
original (table insertion) order. -/
theorem filter_sortDesc (c : Nat) :
    ∀ l, (sortDesc l).filter (fun e => e.2.1 = c) = l.filter (fun e => e.2.1 = c) := by
  intro l
  induction l with
  | nil => rfl
  | cons x xs ih =>
    rw [sortDesc, filter_insertDesc x c (sortDesc xs), ih]
    by_cases hx : x.2.1 = c
    · simp [List.filter_cons, hx]
    · simp [List.filter_cons, hx]

/-- C9.  The CSV rows after the header are the table entries sorted by
non-increasing count, and rows of equal count keep the table's insertion
(first-occurrence) order, so the output is deterministic. -/
theorem csv_rows_sorted_stable (wf : List (String × Nat × String)) :
    csvRows wf = ["Word", "Frequency", "Part of Speech"] ::
      (sortDesc wf).map (fun e => [e.1, Nat.repr e.2.1, e.2.2]) ∧
    List.Pairwise (fun a b => b.2.1 ≤ a.2.1) (sortDesc wf) ∧
    ∀ c, (sortDesc wf).filter (fun e => e.2.1 = c) = wf.filter (fun e => e.2.1 = c) :=
  ⟨rfl, sortDesc_pairwise wf, fun c => filter_sortDesc c wf⟩

/-! ## Counting machinery for the truncation claim -/

/-- The words that survive the table loop's guards: length greater than
one and alphanumeric. -/
def survWords (ws : List String) : List String :=
  ws.filter (fun w => decide (1 < w.data.length) && pyIsAlnum w)

/-- Count stored for a key (0 when absent). -/
def getCount : List (String × Nat × String) → String → Nat
  | [], _ => 0
  | (k, c, _) :: rest, w => if k = w then c else getCount rest w

/-- An absent key has stored count 0. -/
theorem getCount_eq_zero : ∀ (acc : List (String × Nat × String)) (w : String),
    hasKey acc w = false → getCount acc w = 0 := by
  intro acc
  induction acc with
  | nil => intro w _; rfl
  | cons hd tl ih =>
    obtain ⟨k, c, t⟩ := hd
    intro w h
    simp [hasKey] at h
    rw [getCount, if_neg h.1, ih w]
    simp [hasKey]
    exact h.2

/-- Incrementing a present key bumps its stored count. -/
theorem getCount_incr_self : ∀ (acc : List (String × Nat × String)) (w : String),
    hasKey acc w = true → getCount (incr acc w) w = getCount acc w + 1 := by
  intro acc
  induction acc with
  | nil => intro w h; simp [hasKey] at h
  | cons hd tl ih =>
    obtain ⟨k, c, t⟩ := hd
    intro w h
    rw [incr]
    by_cases hk : k = w
    · rw [if_pos hk, getCount, if_pos hk, getCount, if_pos hk]
    · rw [if_neg hk, getCount, if_neg hk, getCount, if_neg hk, ih w]
      simp [hasKey, hk] at h
      simp [hasKey]
      exact h

/-- Incrementing another key leaves a key's stored count unchanged. -/
theorem getCount_incr_ne : ∀ (acc : List (String × Nat × String)) (w0 w : String),
    w ≠ w0 → getCount (incr acc w0) w = getCount acc w := by
  intro acc
  induction acc with
  | nil => intro w0 w _; rfl
  | cons hd tl ih =>
    obtain ⟨k, c, t⟩ := hd
    intro w0 w hne
    rw [incr]
    by_cases hk : k = w0
    · have hkw : ¬k = w := by
        intro hx
        exact hne (by rw [← hx, hk])
      rw [if_pos hk, getCount, if_neg hkw, getCount, if_neg hkw]
    · rw [if_neg hk, getCount, getCount]
      by_cases hkw : k = w
      · rw [if_pos hkw, if_pos hkw]
      · rw [if_neg hkw, if_neg hkw, ih w0 w hne]

/-- Appending a fresh key: its count is 1, others are unchanged. -/
theorem getCount_append_new : ∀ (acc : List (String × Nat × String)) (w0 : String)
    (t : String) (w : String), hasKey acc w0 = false →
    getCount (acc ++ [(w0, 1, t)]) w = if w0 = w then 1 else getCount acc w := by
  intro acc
  induction acc with
  | nil =>
    intro w0 t w _
    simp [getCount]
  | cons hd tl ih =>
    obtain ⟨k, c, t0⟩ := hd
    intro w0 t w h
    simp [hasKey] at h
    rw [List.cons_append, getCount]
    by_cases hkw : k = w
    · have : ¬w0 = w := by
        intro hx
        exact h.1 (by rw [hkw, hx])
      rw [if_pos hkw, if_neg this, getCount, if_pos hkw]
    · rw [if_neg hkw, ih w0 t w (by simp [hasKey]; exact h.2), getCount, if_neg hkw]

/-- The key list is untouched by `incr`. -/
theorem incr_keys : ∀ (acc : List (String × Nat × String)) (w0 : String),
    (incr acc w0).map (fun e => e.1) = acc.map (fun e => e.1) := by
  intro acc
  induction acc with
  | nil => intro w0; rfl
  | cons hd tl ih =>
    obtain ⟨k, c, t⟩ := hd
    intro w0
    rw [incr]
    by_cases hk : k = w0
    · rw [if_pos hk]
      simp
    · rw [if_neg hk]
      simp [ih w0]

/-- `hasKey` is membership in the key list. -/
theorem hasKey_iff_mem (acc : List (String × Nat × String)) (w : String) :
    hasKey acc w = true ↔ w ∈ acc.map (fun e => e.1) := by
  constructor
  · intro h
    simp only [hasKey, List.any_eq_true, decide_eq_true_eq] at h
    obtain ⟨e, he, hk⟩ := h
    exact List.mem_map.mpr ⟨e, he, hk⟩
  · intro h
    obtain ⟨e, he, hk⟩ := List.mem_map.mp h
    simp only [hasKey, List.any_eq_true, decide_eq_true_eq]
    exact ⟨e, he, hk⟩

/-- The table loop keeps the key list duplicate-free. -/
theorem buildFreq_nodup (tags : List (String × String)) :
    ∀ (ws : List String) (acc : List (String × Nat × String)),
      (acc.map (fun e => e.1)).Nodup →
      ((buildFreq tags ws acc).map (fun e => e.1)).Nodup := by
  intro ws
  induction ws with
  | nil =>
    intro acc h
    rw [buildFreq]
    exact h
  | cons w rest ih =>
    intro acc h
    rw [buildFreq]
    by_cases h1 : w.data.length ≤ 1
    · rw [if_pos h1]
      exact ih acc h
    · rw [if_neg h1]
      by_cases h2 : pyIsAlnum w = true
      · rw [if_pos h2]
        by_cases h3 : hasKey acc w = true
        · rw [if_pos h3]
          refine ih _ ?_
          rw [incr_keys]
          exact h
        · rw [if_neg h3]
          refine ih _ ?_
          rw [List.map_append]
          refine List.Nodup.append h (by simp) ?_
          intro x hx hy
          have hxw : x = w := by simpa using hy
          rw [hxw] at hx
          exact absurd ((hasKey_iff_mem acc w).mpr hx) (by simp [h3])
      · rw [if_neg h2]
        exact ih acc h

/-- With duplicate-free keys, a table entry's count is its stored count. -/
theorem mem_getCount : ∀ (acc : List (String × Nat × String)),
    (acc.map (fun e => e.1)).Nodup → ∀ (w : String) (c : Nat) (t : String),
    (w, c, t) ∈ acc → getCount acc w = c := by
  intro acc
  induction acc with
  | nil =>
    intro _ w c t hm
    simp at hm
  | cons hd tl ih =>
    obtain ⟨k, c0, t0⟩ := hd
    intro hnd w c t hm
    rw [getCount]
    rcases List.mem_cons.mp hm with h | h
    · injection h with h1 hrest
      injection hrest with h2 h3
      rw [if_pos h1.symm]
      exact h2.symm
    · by_cases hk : k = w
      · exfalso
        rcases List.nodup_cons.mp hnd with ⟨hk1, _⟩
        apply hk1
        rw [hk]
        exact List.mem_map.mpr ⟨(w, c, t), h, rfl⟩
      · rw [if_neg hk]
        exact ih (List.nodup_cons.mp hnd).2 w c t h

/-- Each surviving word occurrence adds exactly one to its key's count. -/
theorem buildFreq_getCount (tags : List (String × String)) :
    ∀ (ws : List String) (acc : List (String × Nat × String)) (w : String),
      getCount (buildFreq tags ws acc) w = getCount acc w + (survWords ws).count w := by
  intro ws
  induction ws with
  | nil =>
    intro acc w
    rw [buildFreq, survWords]
    rfl
  | cons w0 rest ih =>
    intro acc w
    rw [buildFreq]
    by_cases h1 : w0.data.length ≤ 1
    · rw [if_pos h1, ih]
      have hcond : (decide (1 < w0.data.length) && pyIsAlnum w0) = false := by
        have hd : decide (1 < w0.data.length) = false := by
          simp only [decide_eq_false_iff_not]
          omega
        rw [hd, Bool.false_and]
      have : survWords (w0 :: rest) = survWords rest := by
        rw [survWords, survWords, List.filter_cons, hcond]
        rfl
      rw [this]
    · rw [if_neg h1]
      by_cases h2 : pyIsAlnum w0 = true
      · have hcond : (decide (1 < w0.data.length) && pyIsAlnum w0) = true := by
          rw [h2, Bool.and_true]
          simp only [decide_eq_true_eq]
          omega
        have hsurv : survWords (w0 :: rest) = w0 :: survWords rest := by
          rw [survWords, survWords, List.filter_cons, hcond]
          rfl
        rw [if_pos h2]
        by_cases h3 : hasKey acc w0 = true
        · rw [if_pos h3, ih, hsurv]
          by_cases hww : w = w0
          · subst hww
            rw [getCount_incr_self acc w h3]
            simp [List.count_cons]
            omega
          · rw [getCount_incr_ne acc w0 w hww]
            have : (w0 :: survWords rest).count w = (survWords rest).count w := by
              simp [List.count_cons]
              intro hx
              exact absurd hx.symm hww
            rw [this]
        · rw [if_neg h3, ih, hsurv]
          rw [getCount_append_new acc w0 _ w (by simp [h3])]
          by_cases hww : w0 = w
          · rw [if_pos hww]
            subst hww
            rw [getCount_eq_zero acc w0 (by simp [h3])]
            simp [List.count_cons]
            omega
          · rw [if_neg hww]
            have : (w0 :: survWords rest).count w = (survWords rest).count w := by
              simp [List.count_cons]
              intro hx
              exact absurd hx hww
            rw [this]
      · rw [if_neg h2, ih]
        have hcond : (decide (1 < w0.data.length) && pyIsAlnum w0) = false := by
          cases hb : pyIsAlnum w0 with
          | false => rw [Bool.and_false]
          | true => exact absurd hb h2
        have : survWords (w0 :: rest) = survWords rest := by
          rw [survWords, survWords, List.filter_cons, hcond]
          rfl
        rw [this]

/-! ## Truncation lemmas -/

/-- `split('\n')` always yields at least one line. -/
theorem splitNl_ne_nil : ∀ cs, splitNl cs ≠ [] := by
  intro cs
  induction cs with
  | nil => simp [splitNl]
  | cons c rest ih =>
    rw [splitNl]
    by_cases hc : c = '\n'
    · rw [if_pos hc]
      simp
    · rw [if_neg hc]
      cases hs : splitNl rest with
      | nil => exact absurd hs ih
      | cons l ls => simp

/-- Joining the split lines with newlines restores the text. -/
theorem join_splitNl : ∀ cs, joinNlL (splitNl cs) = cs := by
  intro cs
  induction cs with
  | nil => rfl
  | cons c rest ih =>
    rw [splitNl]
    by_cases hc : c = '\n'
    · rw [if_pos hc]
      cases hs : splitNl rest with
      | nil => exact absurd hs (splitNl_ne_nil rest)
      | cons l ls =>
        rw [hs] at ih
        have hj : joinNlL ([] :: l :: ls) = [] ++ '\n' :: joinNlL (l :: ls) := rfl
        rw [hj, ih, hc]
        rfl
    · rw [if_neg hc]
      cases hs : splitNl rest with
      | nil => exact absurd hs (splitNl_ne_nil rest)
      | cons l ls =>
        rw [hs] at ih
        cases ls with
        | nil =>
          have hj : joinNlL [c :: l] = c :: l := rfl
          have hj2 : joinNlL [l] = l := rfl
          rw [hj2] at ih
          rw [hj, ih]
        | cons l2 ls2 =>
          have hj : joinNlL ((c :: l) :: l2 :: ls2) = (c :: l) ++ '\n' :: joinNlL (l2 :: ls2) := rfl
          have hj2 : joinNlL (l :: l2 :: ls2) = l ++ '\n' :: joinNlL (l2 :: ls2) := rfl
          rw [hj2] at ih
          rw [hj, List.cons_append, ih]

/-- A `takeWhile` whose predicate holds everywhere is the identity. -/
theorem takeWhile_of_all {α : Type} (p : α → Bool) :
    ∀ l : List α, (∀ x ∈ l, p x = true) → l.takeWhile p = l := by
  intro l
  induction l with
  | nil => intro _; rfl
  | cons x rest ih =>
    intro h
    rw [List.takeWhile_cons, if_pos (h x (List.mem_cons_self _ _)), ih]
    intro y hy
    exact h y (List.mem_cons_of_mem _ hy)

/-- C7 counterexample: the input contains a line exactly equal to
"Subscription Information", but an HTML-like tag spanning that line is
removed first, so the token "after" — which occurs only at/after the
marker line of the input — still reaches the frequency table, while the
lines of the input before the marker contain no such token. -/
theorem marker_line_counterexample :
    (splitNl "<a\nSubscription Information\nb>after here".data).any
      (fun l => trimL l = marker) = true ∧
    ("after", (1 : Nat), "UNKNOWN") ∈
      create_word_frequency_table (Except.ok [])
        "<a\nSubscription Information\nb>after here" ∧
    "after" ∉ tokenize ((joinNlL ((splitNl "<a\nSubscription Information\nb>after here".data).takeWhile
      (fun l => trimL l ≠ marker))).map toLowerC) := by
  refine ⟨by decide, by decide, by decide⟩

/-- C7 (amended).  The truncation applies to the text after HTML-tag and
URL removal: every table entry's key is a surviving token of the cleaned
text truncated at the first marker line, with exactly its count there (so
text at or after that line of the cleaned text contributes nothing), and
when no line of the cleaned text trims to the marker the whole cleaned
text is kept. -/
theorem marker_truncation_cleaned :
    ∀ (resp : Except String (List (String × String))) (content : String),
      (∀ w c t, (w, c, t) ∈ create_word_frequency_table resp content →
        c = (survWords (tokenize ((truncatedText content).map toLowerC))).count w ∧
        w ∈ survWords (tokenize ((truncatedText content).map toLowerC))) ∧
      ((∀ l ∈ splitNl (cleanedText content), trimL l ≠ marker) →
        truncatedText content = cleanedText content) := by
  intro resp content
  constructor
  · intro w c t hm
    simp only [create_word_frequency_table] at hm
    have hpos : 1 ≤ c :=
      buildFreq_entries (get_word_pos_tags resp) (fun e => 1 ≤ e.2.1)
        (fun k c t h => Nat.le_succ_of_le h) _ [] (fun v hv h1 h2 => le_refl 1) (by simp)
        (w, c, t) hm
    have hnd : ((buildFreq (get_word_pos_tags resp)
        (tokenize ((truncatedText content).map toLowerC)) []).map (fun e => e.1)).Nodup :=
      buildFreq_nodup _ _ [] (by simp)
    have hcount := buildFreq_getCount (get_word_pos_tags resp)
      (tokenize ((truncatedText content).map toLowerC)) [] w
    have hc : getCount (buildFreq (get_word_pos_tags resp)
        (tokenize ((truncatedText content).map toLowerC)) []) w = c :=
      mem_getCount _ hnd w c t hm
    rw [hc] at hcount
    have hcc : c = (survWords (tokenize ((truncatedText content).map toLowerC))).count w := by
      rw [show getCount [] w = 0 from rfl, Nat.zero_add] at hcount
      exact hcount
    refine ⟨hcc, ?_⟩
    have : 0 < (survWords (tokenize ((truncatedText content).map toLowerC))).count w := by
      omega
    exact List.count_pos_iff.mp this
  · intro h
    unfold truncatedText
    rw [takeWhile_of_all _ _ (fun l hl => by simpa using h l hl), join_splitNl]

/-- Witness for C7's amended statement: the marker cuts off a later
occurrence of "one", and a marker-free text is kept whole. -/
theorem marker_truncation_cleaned_witness :
    ("one", (1 : Nat), "UNKNOWN") ∈ create_word_frequency_table (Except.ok [])
      "one two\nSubscription Information\nthree one" ∧
    (1 : Nat) = (survWords (tokenize
      ((truncatedText "one two\nSubscription Information\nthree one").map toLowerC))).count "one" ∧
    truncatedText "hello world" = cleanedText "hello world" := by
  have hm : ("one", (1 : Nat), "UNKNOWN") ∈ create_word_frequency_table (Except.ok [])
      "one two\nSubscription Information\nthree one" := by decide
  refine ⟨hm, ?_, ?_⟩
  · exact ((marker_truncation_cleaned (Except.ok [])
      "one two\nSubscription Information\nthree one").1 "one" 1 "UNKNOWN" hm).1
  · exact (marker_truncation_cleaned (Except.ok []) "hello world").2 (by decide)

/-! ## Base64url round trip (C2) -/

/-- The URL-safe alphabet writes `-` for `+` and `_` for `/`. -/
def urlSafeChar (c : Char) : Char :=
  if c = '+' then '-' else if c = '/' then '_' else c

/-- Base64url encoding of a byte string: standard base64 with the URL-safe
alphabet substitution. -/
def b64urlEncode (bytes : List Nat) : String :=
  ⟨(encodeBytes bytes).map urlSafeChar⟩

/-- Remove up to `k` trailing `=` padding characters. -/
def removeEndPads (k : Nat) (cs : List Char) : List Char :=
  (cs.reverse.drop (min k ((cs.reverse.takeWhile (fun c => c = '=')).length))).reverse

/-- String version of `removeEndPads`. -/
def stripTrailingPads (k : Nat) (s : String) : String :=
  ⟨removeEndPads k s.data⟩

/-- The sextet values of a byte string, three bytes giving four values and
a final group of one or two bytes giving two or three. -/
def bytesToVals : List Nat → List Nat
  | [] => []
  | [b1] => [b1 / 4, b1 % 4 * 16]
  | [b1, b2] => [b1 / 4, b1 % 4 * 16 + b2 / 16, b2 % 16 * 4]
  | b1 :: b2 :: b3 :: rest =>
    b1 / 4 :: (b1 % 4 * 16 + b2 / 16) :: (b2 % 16 * 4 + b3 / 64) :: b3 % 64 ::
    bytesToVals rest

/-- Number of `=` padding characters the encoding of a byte string ends
with. -/
def padLenOf : List Nat → Nat
  | [] => 0
  | [_] => 2
  | [_, _] => 1
  | _ :: _ :: _ :: rest => padLenOf rest

/-- Decoding a base64 character of value `v` gives back `v`. -/
theorem charToSextet_sextetToChar : ∀ v, v < 64 →
    charToSextet (sextetToChar v) = some v := by decide

/-- Alphabet characters are not the padding character. -/
theorem sextetToChar_ne_pad : ∀ v, v < 64 → sextetToChar v ≠ '=' := by decide

/-- The URL-safe translation of an alphabet character is not padding. -/
theorem urlSafeChar_ne_pad : ∀ v, v < 64 → urlSafeChar (sextetToChar v) ≠ '=' := by decide

/-- Translating to the URL-safe alphabet and back is the identity on
alphabet characters. -/
theorem pyReplace_urlSafe : ∀ v, v < 64 →
    pyReplaceChar (urlSafeChar (sextetToChar v)) = sextetToChar v := by decide

/-- The encoder is the sextet characters followed by the padding. -/
theorem encodeBytes_eq : ∀ bs, encodeBytes bs =
    (bytesToVals bs).map sextetToChar ++ List.replicate (padLenOf bs) '=' := by
  intro bs
  induction bs using bytesToVals.induct with
  | case1 => rfl
  | case2 b1 => rfl
  | case3 b1 b2 => rfl
  | case4 b1 b2 b3 rest ih =>
    rw [encodeBytes, bytesToVals, padLenOf]
    simp [ih]

/-- The sextet values of a byte string are six-bit. -/
theorem bytesToVals_lt : ∀ bs, (∀ b ∈ bs, b < 256) → ∀ v ∈ bytesToVals bs, v < 64 := by
  intro bs
  induction bs using bytesToVals.induct with
  | case1 =>
    intro _ v hv
    simp [bytesToVals] at hv
  | case2 b1 =>
    intro hb v hv
    have h1 : b1 < 256 := hb b1 (by simp)
    simp [bytesToVals] at hv
    rcases hv with h | h <;> omega
  | case3 b1 b2 =>
    intro hb v hv
    have h1 : b1 < 256 := hb b1 (by simp)
    have h2 : b2 < 256 := hb b2 (by simp)
    simp [bytesToVals] at hv
    rcases hv with h | h | h <;> omega
  | case4 b1 b2 b3 rest ih =>
    intro hb v hv
    have h1 : b1 < 256 := hb b1 (by simp)
    have h2 : b2 < 256 := hb b2 (by simp)
    have h3 : b3 < 256 := hb b3 (by simp)
    rw [bytesToVals] at hv
    simp at hv
    rcases hv with h | h | h | h | h
    · omega
    · omega
    · omega
    · omega
    · exact ih (fun b hbm => hb b (by simp [hbm])) v h

/-- Reassembling the sextet values of a byte string gives it back. -/
theorem decodeVals_bytesToVals : ∀ bs, (∀ b ∈ bs, b < 256) →
    decodeVals (bytesToVals bs) = bs := by
  intro bs
  induction bs using bytesToVals.induct with
  | case1 => intro _; rfl
  | case2 b1 =>
    intro hb
    have h1 : b1 < 256 := hb b1 (by simp)
    rw [bytesToVals, decodeVals]
    congr 1
    omega
  | case3 b1 b2 =>
    intro hb
    have h1 : b1 < 256 := hb b1 (by simp)
    have h2 : b2 < 256 := hb b2 (by simp)
    rw [bytesToVals, decodeVals]
    congr 1
    · omega
    · congr 1
      omega
  | case4 b1 b2 b3 rest ih =>
    intro hb
    have h1 : b1 < 256 := hb b1 (by simp)
    have h2 : b2 < 256 := hb b2 (by simp)
    have h3 : b3 < 256 := hb b3 (by simp)
    rw [bytesToVals, decodeVals, ih (fun b hbm => hb b (by simp [hbm]))]
    congr 1
    · omega
    · congr 1
      · omega
      · congr 1
        omega

/-- Length of the sextet list modulo 4, in terms of the padding length. -/
theorem bytesToVals_len : ∀ bs,
    (bytesToVals bs).length % 4 = (4 - padLenOf bs) % 4 := by
  intro bs
  induction bs using bytesToVals.induct with
  | case1 => rfl
  | case2 b1 => rfl
  | case3 b1 b2 => rfl
  | case4 b1 b2 b3 rest ih =>
    rw [bytesToVals, padLenOf]
    simp only [List.length_cons]
    omega

/-- The padding length is at most two. -/
theorem padLenOf_le : ∀ bs, padLenOf bs ≤ 2 := by
  intro bs
  induction bs using bytesToVals.induct with
  | case1 => rw [padLenOf]; omega
  | case2 b1 => rw [padLenOf]
  | case3 b1 b2 => rw [padLenOf]; omega
  | case4 b1 b2 b3 rest ih => rw [padLenOf]; exact ih

/-- A `takeWhile` over elements failing the predicate is empty. -/
theorem takeWhile_nil_of_not {α : Type} (p : α → Bool) :
    ∀ l : List α, (∀ x ∈ l, p x = false) → l.takeWhile p = [] := by
  intro l h
  cases l with
  | nil => rfl
  | cons x rest =>
    rw [List.takeWhile_cons, h x (List.mem_cons_self _ _)]
    rfl

/-- Reading data characters stops exactly at the padding. -/
theorem takeWhile_data_append (l1 : List Char) (p : Nat)
    (h : ∀ c ∈ l1, c ≠ '=') :
    (l1 ++ List.replicate p '=').takeWhile (fun c => c ≠ '=') = l1 := by
  induction l1 with
  | nil =>
    refine takeWhile_nil_of_not _ _ ?_
    intro x hx
    have : x = '=' := List.eq_of_mem_replicate hx
    simp [this]
  | cons c rest ih =>
    rw [List.cons_append, List.takeWhile_cons]
    have hc : c ≠ '=' := h c (List.mem_cons_self _ _)
    rw [decide_eq_true hc, if_pos rfl, ih (fun y hy => h y (List.mem_cons_of_mem _ hy))]

/-- `b64decode` inverts the encoder on any byte string. -/
theorem b64decodeE_encode (bs : List Nat) (hb : ∀ b ∈ bs, b < 256) :
    b64decodeE ((bytesToVals bs).map sextetToChar ++
      List.replicate (padLenOf bs) '=') = Except.ok bs := by
  have hv : ∀ v ∈ bytesToVals bs, v < 64 := bytesToVals_lt bs hb
  have hl1 : ∀ c ∈ (bytesToVals bs).map sextetToChar, c ≠ '=' := by
    intro c hc
    obtain ⟨v, hvm, rfl⟩ := List.mem_map.mp hc
    exact sextetToChar_ne_pad v (hv v hvm)
  have hkeep : ((bytesToVals bs).map sextetToChar ++
      List.replicate (padLenOf bs) '=').filter
        (fun c => (charToSextet c).isSome || c = '=') =
      (bytesToVals bs).map sextetToChar ++ List.replicate (padLenOf bs) '=' := by
    refine List.filter_eq_self.mpr ?_
    intro c hc
    rcases List.mem_append.mp hc with h | h
    · obtain ⟨v, hvm, rfl⟩ := List.mem_map.mp h
      rw [charToSextet_sextetToChar v (hv v hvm)]
      rfl
    · have : c = '=' := List.eq_of_mem_replicate h
      simp [this]
  have hdata : ((bytesToVals bs).map sextetToChar ++
      List.replicate (padLenOf bs) '=').takeWhile (fun c => c ≠ '=') =
      (bytesToVals bs).map sextetToChar :=
    takeWhile_data_append _ _ hl1
  have hvals : ((bytesToVals bs).map sextetToChar).map
      (fun c => (charToSextet c).getD 0) = bytesToVals bs := by
    rw [List.map_map]
    have hcg : ∀ v ∈ bytesToVals bs,
        ((fun c => (charToSextet c).getD 0) ∘ sextetToChar) v = id v := by
      intro v hvm
      simp only [Function.comp_apply, id]
      rw [charToSextet_sextetToChar v (hv v hvm)]
      rfl
    rw [List.map_eq_map_iff.mpr hcg, List.map_id]
  have hlenmap : ((bytesToVals bs).map sextetToChar).length = (bytesToVals bs).length :=
    List.length_map _ _
  have hlen := bytesToVals_len bs
  have hple := padLenOf_le bs
  have hpads : (((bytesToVals bs).map sextetToChar ++
      List.replicate (padLenOf bs) '=').drop
        (bytesToVals bs).length).takeWhile (fun c => c = '=') =
      List.replicate (padLenOf bs) '=' := by
    rw [← hlenmap, List.drop_left, List.takeWhile_replicate, if_pos (by decide)]
  simp only [b64decodeE]
  rw [hkeep, hdata, hvals, hlenmap]
  by_cases h0 : (bytesToVals bs).length % 4 = 0
  · rw [if_pos h0, decodeVals_bytesToVals bs hb]
  · rw [if_neg h0]
    have h1 : ¬(bytesToVals bs).length % 4 = 1 := by omega
    rw [if_neg h1, hpads, List.length_replicate, if_pos (by omega),
      decodeVals_bytesToVals bs hb]

/-- The code point of a `Char` is a Unicode scalar value. -/
theorem char_valid_nat (c : Char) :
    c.toNat < 0xd800 ∨ (0xdfff < c.toNat ∧ c.toNat < 0x110000) := c.valid

/-- UTF-8 encodings consist of bytes. -/
theorem utf8EncodeChar_lt (c : Char) : ∀ b ∈ utf8EncodeChar c, b < 256 := by
  have hval := char_valid_nat c
  intro b hb
  simp only [utf8EncodeChar] at hb
  by_cases h1 : c.toNat < 0x80
  · rw [if_pos h1] at hb
    simp at hb
    omega
  · rw [if_neg h1] at hb
    by_cases h2 : c.toNat < 0x800
    · rw [if_pos h2] at hb
      simp at hb
      rcases hb with h | h <;> omega
    · rw [if_neg h2] at hb
      by_cases h3 : c.toNat < 0x10000
      · rw [if_pos h3] at hb
        simp at hb
        rcases hb with h | h | h <;> omega
      · rw [if_neg h3] at hb
        simp at hb
        rcases hb with h | h | h | h <;> omega

/-- All bytes of an encoded string are bytes. -/
theorem utf8Encode_lt (x : String) : ∀ b ∈ utf8Encode x, b < 256 := by
  intro b hb
  unfold utf8Encode at hb
  rw [List.mem_flatten] at hb
  obtain ⟨l, hl, hbl⟩ := hb
  obtain ⟨c, _, rfl⟩ := List.mem_map.mp hl
  exact utf8EncodeChar_lt c b hbl

/-- Decoding picks up exactly the encoded character and moves on. -/
theorem utf8DecodeIgnore_encodeChar (c : Char) (rest : List Nat) :
    utf8DecodeIgnore (utf8EncodeChar c ++ rest) = c.toNat :: utf8DecodeIgnore rest := by
  have hval := char_valid_nat c
  unfold utf8DecodeIgnore
  by_cases h1 : c.toNat < 0x80
  · have he : utf8EncodeChar c = [c.toNat] := by
      simp only [utf8EncodeChar]
      rw [if_pos h1]
    rw [he, List.cons_append, List.nil_append, utf8DecodeIgnoreAux, if_pos h1]
  · by_cases h2 : c.toNat < 0x800
    · have he : utf8EncodeChar c = [0xC0 + c.toNat / 64, 0x80 + c.toNat % 64] := by
        simp only [utf8EncodeChar]
        rw [if_neg h1, if_pos h2]
      rw [he]
      simp only [List.cons_append, List.nil_append]
      rw [utf8DecodeIgnoreAux]
      simp only [List.headD_cons]
      rw [if_neg (by omega), if_neg (by omega), if_pos (by omega), if_pos (by omega),
        utf8DecodeIgnoreAux,
        show (0xC0 + c.toNat / 64 - 0xC0) * 64 + (0x80 + c.toNat % 64 - 0x80) = c.toNat
          from by omega]
    · by_cases h3 : c.toNat < 0x10000
      · have he : utf8EncodeChar c =
            [0xE0 + c.toNat / 4096, 0x80 + c.toNat / 64 % 64, 0x80 + c.toNat % 64] := by
          simp only [utf8EncodeChar]
          rw [if_neg h1, if_neg h2, if_pos h3]
        rw [he]
        simp only [List.cons_append, List.nil_append]
        rw [utf8DecodeIgnoreAux]
        simp only [List.headD_cons, List.drop_succ_cons, List.drop_zero]
        rw [if_neg (by omega), if_neg (by omega), if_neg (by omega), if_pos (by omega),
          if_pos ?cond3, utf8DecodeIgnoreAux, utf8DecodeIgnoreAux]
        case cond3 =>
          refine ⟨⟨by omega, by omega, ?_, ?_⟩, by omega, by omega⟩
          · intro hE0
            have h0 : c.toNat / 4096 = 0 := by omega
            have hlow : c.toNat < 4096 := by omega
            omega
          · intro hED
            have h13 : c.toNat / 4096 = 13 := by omega
            have hns : c.toNat < 0xd800 := by omega
            omega
        rw [show (0xE0 + c.toNat / 4096 - 0xE0) * 4096 +
            (0x80 + c.toNat / 64 % 64 - 0x80) * 64 + (0x80 + c.toNat % 64 - 0x80) =
            c.toNat from by omega]
      · have h4 : c.toNat < 0x110000 := by omega
        have he : utf8EncodeChar c =
            [0xF0 + c.toNat / 0x40000, 0x80 + c.toNat / 4096 % 64,
             0x80 + c.toNat / 64 % 64, 0x80 + c.toNat % 64] := by
          simp only [utf8EncodeChar]
          rw [if_neg h1, if_neg h2, if_neg h3]
        rw [he]
        simp only [List.cons_append, List.nil_append]
        rw [utf8DecodeIgnoreAux]
        simp only [List.headD_cons, List.drop_succ_cons, List.drop_zero]
        rw [if_neg (by omega), if_neg (by omega), if_neg (by omega), if_neg (by omega),
          if_pos (by omega), if_pos ?cond4, utf8DecodeIgnoreAux, utf8DecodeIgnoreAux,
          utf8DecodeIgnoreAux]
        case cond4 =>
          refine ⟨⟨by omega, by omega, ?_, ?_⟩, ⟨by omega, by omega⟩, by omega, by omega⟩
          · intro hF0
            have h0 : c.toNat / 0x40000 = 0 := by omega
            have hlow : c.toNat < 0x40000 := by omega
            omega
          · intro hF4
            have h0 : c.toNat / 0x40000 = 4 := by omega
            have hhigh : 0x100000 ≤ c.toNat := by omega
            omega
        rw [show (0xF0 + c.toNat / 0x40000 - 0xF0) * 0x40000 +
            (0x80 + c.toNat / 4096 % 64 - 0x80) * 4096 +
            (0x80 + c.toNat / 64 % 64 - 0x80) * 64 + (0x80 + c.toNat % 64 - 0x80) =
            c.toNat from by omega]

/-- Decoding the concatenated encodings of a character list recovers the
code points. -/
theorem utf8DecodeIgnore_encode_list : ∀ cs : List Char,
    utf8DecodeIgnore ((cs.map utf8EncodeChar).flatten) = cs.map Char.toNat := by
  intro cs
  induction cs with
  | nil => rfl
  | cons c rest ih =>
    rw [List.map_cons, List.flatten_cons, utf8DecodeIgnore_encodeChar, ih,
      List.map_cons]

/-- UTF-8 round trip at the string level. -/
theorem utf8_roundtrip (s : String) :
    (utf8DecodeIgnore (utf8Encode s)).map Char.ofNat = s.data := by
  unfold utf8Encode
  rw [utf8DecodeIgnore_encode_list, List.map_map]
  have hcg : ∀ c ∈ s.data, (Char.ofNat ∘ Char.toNat) c = id c := by
    intro c _
    simp only [Function.comp_apply, id]
    exact Char.ofNat_toNat c
  rw [List.map_eq_map_iff.mpr hcg, List.map_id]

/-- Removing up to `k` trailing pads from data followed by `p` pads leaves
the data and `p - min k p` pads. -/
theorem removeEndPads_append (k p : Nat) (l1 : List Char) (h : ∀ c ∈ l1, c ≠ '=') :
    removeEndPads k (l1 ++ List.replicate p '=') =
      l1 ++ List.replicate (p - min k p) '=' := by
  unfold removeEndPads
  rw [List.reverse_append, List.reverse_replicate]
  have htw : (List.replicate p '=' ++ l1.reverse).takeWhile (fun c => c = '=') =
      List.replicate p '=' := by
    rw [List.takeWhile_append]
    have hlen1 : ((List.replicate p '=').takeWhile (fun c => c = '=')).length =
        (List.replicate p '=').length := by
      rw [List.takeWhile_replicate, if_pos (by decide)]
    rw [if_pos hlen1]
    have hrev : l1.reverse.takeWhile (fun c => c = '=') = [] := by
      refine takeWhile_nil_of_not _ _ ?_
      intro c hc
      exact decide_eq_false (h c (List.mem_reverse.mp hc))
    rw [hrev, List.append_nil]
  rw [htw, List.length_replicate]
  have hmin : min k p ≤ p := Nat.min_le_right k p
  rw [List.drop_append_of_le_length (by rw [List.length_replicate]; exact hmin)]
  rw [List.drop_replicate, List.reverse_append, List.reverse_replicate,
    List.reverse_reverse]

/-- C2.  Base64url round trip as the code performs it: for every string
`x` and every `k ≤ 3`, decoding the base64url encoding of the UTF-8 bytes
of `x` with up to `k` of its trailing `=` padding characters removed gives
back `x` — the code re-pads to a multiple of four and translates the
URL-safe alphabet before decoding. -/
theorem base64url_roundtrip (x : String) (k : Nat) (hk : k ≤ 3) :
    decode_email_content (stripTrailingPads k (b64urlEncode (utf8Encode x))) = x := by
  have hb : ∀ b ∈ utf8Encode x, b < 256 := utf8Encode_lt x
  have hv : ∀ v ∈ bytesToVals (utf8Encode x), v < 64 := bytesToVals_lt _ hb
  have hlen := bytesToVals_len (utf8Encode x)
  have hple := padLenOf_le (utf8Encode x)
  have henc : (b64urlEncode (utf8Encode x)).data =
      (bytesToVals (utf8Encode x)).map (urlSafeChar ∘ sextetToChar) ++
      List.replicate (padLenOf (utf8Encode x)) '=' := by
    show (encodeBytes (utf8Encode x)).map urlSafeChar = _
    rw [encodeBytes_eq, List.map_append, List.map_map, List.map_replicate]
    rfl
  have hl1 : ∀ c ∈ (bytesToVals (utf8Encode x)).map (urlSafeChar ∘ sextetToChar),
      c ≠ '=' := by
    intro c hc
    obtain ⟨v, hvm, rfl⟩ := List.mem_map.mp hc
    exact urlSafeChar_ne_pad v (hv v hvm)
  have hstrip : (stripTrailingPads k (b64urlEncode (utf8Encode x))).data =
      (bytesToVals (utf8Encode x)).map (urlSafeChar ∘ sextetToChar) ++
      List.replicate (padLenOf (utf8Encode x) - min k (padLenOf (utf8Encode x))) '=' := by
    show removeEndPads k (b64urlEncode (utf8Encode x)).data = _
    rw [henc, removeEndPads_append _ _ _ hl1]
  have hnorm : b64Normalized (stripTrailingPads k (b64urlEncode (utf8Encode x))) =
      (bytesToVals (utf8Encode x)).map sextetToChar ++
      List.replicate (padLenOf (utf8Encode x)) '=' := by
    simp only [b64Normalized]
    rw [hstrip, List.length_append, List.length_map, List.length_replicate]
    rw [show (if ((bytesToVals (utf8Encode x)).length +
          (padLenOf (utf8Encode x) - min k (padLenOf (utf8Encode x)))) % 4 ≠ 0 then
          4 - ((bytesToVals (utf8Encode x)).length +
            (padLenOf (utf8Encode x) - min k (padLenOf (utf8Encode x)))) % 4 else 0) =
        min k (padLenOf (utf8Encode x)) from by
      split_ifs with hc
      · omega
      · omega]
    rw [List.append_assoc, ← List.replicate_add]
    rw [show padLenOf (utf8Encode x) - min k (padLenOf (utf8Encode x)) +
        min k (padLenOf (utf8Encode x)) = padLenOf (utf8Encode x) from by omega]
    rw [List.map_append, List.map_map, List.map_replicate]
    have h1 : (bytesToVals (utf8Encode x)).map
        (pyReplaceChar ∘ (urlSafeChar ∘ sextetToChar)) =
        (bytesToVals (utf8Encode x)).map sextetToChar :=
      List.map_eq_map_iff.mpr (fun v hvm => pyReplace_urlSafe v (hv v hvm))
    rw [h1]
    rfl
  unfold decode_email_content
  rw [hnorm, b64decodeE_encode _ hb]
  show String.mk ((utf8DecodeIgnore (utf8Encode x)).map Char.ofNat) = x
  rw [utf8_roundtrip]

/-- Witness for C2: the unpadded body "SGVsbG8" — the encoding of "Hello"
with one padding character removed — decodes to "Hello". -/
theorem base64url_roundtrip_witness :
    stripTrailingPads 1 (b64urlEncode (utf8Encode "Hello")) = "SGVsbG8" ∧
    decode_email_content "SGVsbG8" = "Hello" := by
  have hs : stripTrailingPads 1 (b64urlEncode (utf8Encode "Hello")) = "SGVsbG8" := by
    decide
  refine ⟨hs, ?_⟩
  have h := base64url_roundtrip "Hello" 1 (by omega)
  rw [hs] at h
  exact h

end EmailScanner
